import Mathlib

/-!
Verification of the privacy-telemetry classification engine of the
`python-selenium-crawler` repository (files `analysis/analyse.py` and
`crawler_src/crawl.py`).

Python strings are modelled as lists of characters (`Str`), Python's raised
`ValueError` / normal return as `PyResult`, and `dict` objects as association
lists or as functions built by repeated update, matching the source's use.
-/

/-- Model of a Python `str`: a list of characters. -/
abbrev Str := List Char

/-- Model of Python's `str.split(sep)` (unbounded): split a string at every
occurrence of the one-character separator.  `"".split(sep)` is `[""]`, and
consecutive separators produce empty pieces, as in Python. -/
def splitSep (sep : Char) : Str → List Str
  | [] => [[]]
  | c :: cs =>
    if c = sep then [] :: splitSep sep cs
    else
      match splitSep sep cs with
      | [] => [[c]]
      | p :: ps => (c :: p) :: ps

/-- Model of `sep.join(parts)` for a one-character separator. -/
def joinSep (sep : Char) : List Str → Str
  | [] => []
  | [p] => p
  | p :: ps => p ++ sep :: joinSep sep ps

/-- `domain.split(".")`. -/
def splitDots (s : Str) : List Str := splitSep '.' s

/-- `".".join(parts)`. -/
def joinDots (ps : List Str) : Str := joinSep '.' ps

/-- Model of `s.split(sep, 1)[1]` guarded by `except IndexError`: everything
after the first occurrence of `sep`, or `none` when `sep` does not occur. -/
def splitRest (sep : Char) : Str → Option Str
  | [] => none
  | c :: cs => if c = sep then some cs else splitRest sep cs

/-- Model of Python's `s.rsplit(sep, n)`: at most `n` splits, counted from the
right, so at most `n + 1` parts; the leftmost part keeps its separators. -/
def pyRsplit (sep : Char) (n : Nat) (s : Str) : List Str :=
  let ps := splitSep sep s
  if ps.length ≤ n + 1 then ps
  else joinSep sep (ps.take (ps.length - n)) :: ps.drop (ps.length - n)

/-- `analyse.py` line 68: `domain = ".".join(domain.rsplit(".", 5)[1:])`. -/
def blCollapse (domain : Str) : Str :=
  joinDots ((pyRsplit '.' 5 domain).drop 1)

/-- `analyse.py` lines 69-79: the stripping loop of `domain_in_blocklist`.
The fuel argument models the `count` bound: an iteration with fuel `0`
corresponds to `count > 4`, and the `d = ""` test models `while domain != ""`.
-/
def blLoop (T : List Str) : Nat → Str → Option Str × Bool
  | 0, _ => (none, false)
  | fuel + 1, d =>
    if d = [] then (none, false)
    else if d ∈ T then (some d, true)
    else
      match splitRest '.' d with
      | some rest => blLoop T fuel rest
      | none => (none, false)

/-- `analyse.py` lines 47-80: `domain_in_blocklist(tracker_domains, domain)`. -/
def domain_in_blocklist (T : List Str) (domain : Str) : Option Str × Bool :=
  if domain ∈ T then (some domain, true)
  else blLoop T 4 (blCollapse domain)

/-- Spec-side definition (for refinement comparison), following the spec's
words: "collapse `domain` to at most its last 5 dot-separated labels (drop any
extra leading labels beyond the 5th from the right)". -/
def specCollapse (d : Str) : Str :=
  let ps := splitDots d
  joinDots (ps.drop (ps.length - 5))

/-- Spec-side definition (for refinement comparison), following the spec's
words: "Repeatedly: check current string against `knownDomains`; if found,
return match.  Otherwise strip the leftmost label ...  If stripping fails
because no `.` remains, classification fails", with `strips` remaining
stripping iterations allowed. -/
def specLoop (T : List Str) : Nat → Str → Option Str × Bool
  | 0, d => if d ∈ T then (some d, true) else (none, false)
  | strips + 1, d =>
    if d ∈ T then (some d, true)
    else
      match splitRest '.' d with
      | some rest => specLoop T strips rest
      | none => (none, false)

/-- Spec-side classifier: exact membership first, then the collapse, then the
check-and-strip loop with at most `maxStrips` stripping iterations. -/
def specClassify (maxStrips : Nat) (T : List Str) (d : Str) : Option Str × Bool :=
  if d ∈ T then (some d, true)
  else specLoop T maxStrips (specCollapse d)

/-! ### Basic lemmas about the string model -/

theorem splitSep_ne_nil (sep : Char) (s : Str) : splitSep sep s ≠ [] := by
  cases s with
  | nil => simp [splitSep]
  | cons c cs =>
    simp only [splitSep]
    split
    · simp
    · cases h : splitSep sep cs <;> simp

theorem joinSep_splitSep (sep : Char) (s : Str) :
    joinSep sep (splitSep sep s) = s := by
  induction s with
  | nil => rfl
  | cons c cs ih =>
    simp only [splitSep]
    by_cases hc : c = sep
    · subst hc
      simp only [if_pos rfl]
      rcases h : splitSep c cs with _ | ⟨p, ps⟩
      · exact absurd h (splitSep_ne_nil c cs)
      · rw [h] at ih
        cases ps with
        | nil => simp [joinSep] at ih ⊢; simp [ih]
        | cons q qs => simp [joinSep] at ih ⊢; simp [ih]
    · rw [if_neg hc]
      rcases h : splitSep sep cs with _ | ⟨p, ps⟩
      · exact absurd h (splitSep_ne_nil sep cs)
      · rw [h] at ih
        cases ps with
        | nil => simp [joinSep] at ih ⊢; simp [ih]
        | cons q qs =>
          simp [joinSep] at ih ⊢
          simp [ih]

theorem splitSep_sep_not_mem (sep : Char) (s : Str) :
    ∀ p ∈ splitSep sep s, sep ∉ p := by
  induction s with
  | nil => intro p hp; simp [splitSep] at hp; simp [hp]
  | cons c cs ih =>
    intro p hp
    simp only [splitSep] at hp
    by_cases hc : c = sep
    · rw [if_pos hc] at hp
      rcases List.mem_cons.mp hp with h | h
      · simp [h]
      · exact ih p h
    · rw [if_neg hc] at hp
      rcases hsplit : splitSep sep cs with _ | ⟨q, qs⟩
      · exact absurd hsplit (splitSep_ne_nil sep cs)
      · rw [hsplit] at hp
        rcases List.mem_cons.mp hp with h | h
        · subst h
          intro hmem
          rcases List.mem_cons.mp hmem with h1 | h1
          · exact hc h1.symm
          · exact ih q (by rw [hsplit]; exact List.mem_cons_self q qs) h1
        · exact ih p (by rw [hsplit]; exact List.mem_cons_of_mem q h)

/-- `joinSep` of a cons with a nonempty tail. -/
theorem joinSep_cons (sep : Char) (p : Str) (ps : List Str) (h : ps ≠ []) :
    joinSep sep (p :: ps) = p ++ sep :: joinSep sep ps := by
  cases ps with
  | nil => exact absurd rfl h
  | cons q qs => rfl

theorem splitRest_eq_none (sep : Char) (s : Str) :
    splitRest sep s = none ↔ sep ∉ s := by
  induction s with
  | nil => simp [splitRest]
  | cons c cs ih =>
    simp only [splitRest]
    by_cases hc : c = sep
    · simp [hc]
    · simp [hc, ih, Ne.symm hc]

/-- Stripping the leftmost label of a joined label list. -/
theorem splitRest_joinSep (sep : Char) (p : Str) (ps : List Str)
    (hp : sep ∉ p) :
    splitRest sep (joinSep sep (p :: ps)) =
      match ps with
      | [] => none
      | _ :: _ => some (joinSep sep ps) := by
  induction p with
  | nil =>
    cases ps with
    | nil => simp [joinSep, splitRest]
    | cons q qs => simp [joinSep_cons sep [] (q :: qs) (by simp), splitRest]
  | cons c cs ih =>
    have hc : c ≠ sep := fun h => hp (by simp [h])
    have hcs : sep ∉ cs := fun h => hp (List.mem_cons_of_mem c h)
    cases ps with
    | nil =>
      simp only [joinSep, splitRest, if_neg hc]
      have := (splitRest_eq_none sep cs).mpr hcs
      simpa [joinSep] using this
    | cons q qs =>
      have h1 : joinSep sep ((c :: cs) :: q :: qs) = c :: (cs ++ sep :: joinSep sep (q :: qs)) := by
        rw [joinSep_cons sep (c :: cs) (q :: qs) (by simp)]; rfl
      rw [h1]
      simp only [splitRest, if_neg hc]
      have h2 : joinSep sep (cs :: q :: qs) = cs ++ sep :: joinSep sep (q :: qs) :=
        joinSep_cons sep cs (q :: qs) (by simp)
      have := ih hcs
      rw [h2] at this
      exact this

/-- A string with no separator splits into a single piece. -/
theorem splitSep_eq_single (sep : Char) (s : Str) (h : sep ∉ s) :
    splitSep sep s = [s] := by
  induction s with
  | nil => rfl
  | cons c cs ih =>
    have hc : c ≠ sep := fun hh => h (by simp [hh])
    have hcs : sep ∉ cs := fun hh => h (List.mem_cons_of_mem c hh)
    simp only [splitSep, if_neg hc, ih hcs]

/-! ### Lemmas about the classifier -/

theorem splitDots_ne_nil (d : Str) : splitDots d ≠ [] := splitSep_ne_nil '.' d

theorem joinDots_splitDots (d : Str) : joinDots (splitDots d) = d :=
  joinSep_splitSep '.' d

theorem splitDots_dot_not_mem (d : Str) : ∀ p ∈ splitDots d, '.' ∉ p :=
  splitSep_sep_not_mem '.' d

/-- The collapse of `domain_in_blocklist` keeps the last `min (n-1) 5` labels
of an `n`-label domain: it drops the leading labels beyond the 5th from the
right and always at least one label. -/
theorem blCollapse_eq (d : Str) :
    blCollapse d =
      joinDots ((splitDots d).drop (max 1 ((splitDots d).length - 5))) := by
  unfold blCollapse pyRsplit
  by_cases h : (splitSep '.' d).length ≤ 5 + 1
  · have hm : max 1 ((splitSep '.' d).length - 5) = 1 := by omega
    simp only [splitDots, if_pos h, hm]
  · have hm : max 1 ((splitSep '.' d).length - 5) = (splitSep '.' d).length - 5 := by omega
    simp only [splitDots, if_neg h, hm, List.drop_succ_cons, List.drop_zero]

/-- The stripping loop (`blLoop` with fuel `f + 1`) computes the same result
as the spec's check-and-strip loop with `f` stripping iterations allowed,
provided the empty string is not a blocklist entry. -/
theorem blLoop_eq_specLoop (T : List Str) (hT : [] ∉ T) :
    ∀ (ll : List Str), ll ≠ [] → (∀ p ∈ ll, '.' ∉ p) → ∀ f : Nat,
      blLoop T (f + 1) (joinDots ll) = specLoop T f (joinDots ll) := by
  intro ll
  induction ll with
  | nil => intro h; exact absurd rfl h
  | cons p ps ih =>
    intro _ hdf f
    have hp : '.' ∉ p := hdf p (List.mem_cons_self p ps)
    cases ps with
    | nil =>
      have hd : joinDots [p] = p := rfl
      rw [hd]
      by_cases hpe : p = []
      · subst hpe
        cases f with
        | zero => simp [blLoop, specLoop, hT]
        | succ f => simp [blLoop, specLoop, hT, splitRest]
      · by_cases hmem : p ∈ T
        · cases f with
          | zero => simp [blLoop, specLoop, hpe, hmem]
          | succ f => simp [blLoop, specLoop, hpe, hmem]
        · have hnone : splitRest '.' p = none := (splitRest_eq_none '.' p).mpr hp
          cases f with
          | zero => simp [blLoop, specLoop, hpe, hmem, hnone]
          | succ f => simp [blLoop, specLoop, hpe, hmem, hnone]
    | cons q qs =>
      have hd : joinDots (p :: q :: qs) = p ++ '.' :: joinDots (q :: qs) :=
        joinSep_cons '.' p (q :: qs) (by simp)
      have hdne : joinDots (p :: q :: qs) ≠ [] := by
        rw [hd]
        intro h
        rcases List.append_eq_nil.mp h with ⟨_, h2⟩
        exact List.cons_ne_nil _ _ h2
      have hrest : splitRest '.' (joinDots (p :: q :: qs)) = some (joinDots (q :: qs)) := by
        have := splitRest_joinSep '.' p (q :: qs) hp
        exact this
      by_cases hmem : joinDots (p :: q :: qs) ∈ T
      · cases f with
        | zero => simp [blLoop, specLoop, hdne, hmem]
        | succ f => simp [blLoop, specLoop, hdne, hmem]
      · cases f with
        | zero =>
          simp [blLoop, specLoop, hdne, hmem, hrest]
        | succ f =>
          simp only [blLoop, specLoop, if_neg hdne, if_neg hmem, hrest]
          exact ih (by simp) (fun r hr => hdf r (List.mem_cons_of_mem p hr)) f

/-- Every result of the stripping loop is either a miss, or a blocklist member
that is a dot-delimited suffix (a tail of the label list) of the loop's input.
-/
theorem blLoop_result (T : List Str) :
    ∀ (ll : List Str), (∀ p ∈ ll, '.' ∉ p) → ∀ f : Nat,
      blLoop T f (joinDots ll) = (none, false) ∨
      ∃ m s, blLoop T f (joinDots ll) = (some s, true) ∧ s ∈ T ∧
        s = joinDots (ll.drop m) := by
  intro ll
  induction ll with
  | nil =>
    intro _ f
    cases f with
    | zero => exact Or.inl rfl
    | succ f => exact Or.inl (by simp [blLoop, joinDots, joinSep])
  | cons p ps ih =>
    intro hdf f
    have hp : '.' ∉ p := hdf p (List.mem_cons_self p ps)
    cases f with
    | zero => exact Or.inl rfl
    | succ f =>
      cases ps with
      | nil =>
        have hd : joinDots [p] = p := rfl
        rw [hd]
        by_cases hpe : p = []
        · subst hpe; exact Or.inl (by simp [blLoop])
        · by_cases hmem : p ∈ T
          · refine Or.inr ⟨0, p, ?_, hmem, rfl⟩
            simp [blLoop, hpe, hmem]
          · have hnone : splitRest '.' p = none := (splitRest_eq_none '.' p).mpr hp
            exact Or.inl (by simp [blLoop, hpe, hmem, hnone])
      | cons q qs =>
        have hd : joinDots (p :: q :: qs) = p ++ '.' :: joinDots (q :: qs) :=
          joinSep_cons '.' p (q :: qs) (by simp)
        have hdne : joinDots (p :: q :: qs) ≠ [] := by
          rw [hd]
          intro h
          rcases List.append_eq_nil.mp h with ⟨_, h2⟩
          exact List.cons_ne_nil _ _ h2
        have hrest : splitRest '.' (joinDots (p :: q :: qs)) = some (joinDots (q :: qs)) :=
          splitRest_joinSep '.' p (q :: qs) hp
        by_cases hmem : joinDots (p :: q :: qs) ∈ T
        · refine Or.inr ⟨0, joinDots (p :: q :: qs), ?_, hmem, rfl⟩
          simp [blLoop, hdne, hmem]
        · have hstep : blLoop T (f + 1) (joinDots (p :: q :: qs)) =
              blLoop T f (joinDots (q :: qs)) := by
            simp [blLoop, hdne, hmem, hrest]
          rw [hstep]
          rcases ih (fun r hr => hdf r (List.mem_cons_of_mem p hr)) f with h | ⟨m, s, h1, h2, h3⟩
          · exact Or.inl h
          · exact Or.inr ⟨m + 1, s, h1, h2, by rw [List.drop_succ_cons]; exact h3⟩

theorem blLoop_succ (T : List Str) (f : Nat) (d : Str) :
    blLoop T (f + 1) d =
      if d = [] then (none, false)
      else if d ∈ T then (some d, true)
      else
        match splitRest '.' d with
        | some rest => blLoop T f rest
        | none => (none, false) := rfl

theorem specLoop_succ (T : List Str) (s : Nat) (d : Str) :
    specLoop T (s + 1) d =
      if d ∈ T then (some d, true)
      else
        match splitRest '.' d with
        | some rest => specLoop T s rest
        | none => (none, false) := rfl

/-- Claim C1 (counterexample): the 3-label domain `a.b.c`, which is not an
exact blocklist member, is changed by the collapse step (it becomes `b.c`),
contradicting "a domain with 5 or fewer labels is unchanged by the collapse
step before stripping begins". -/
theorem C1_counterexample :
    ("a.b.c".toList) ∉ ([] : List Str) ∧
    (splitDots ("a.b.c".toList)).length ≤ 5 ∧
    blCollapse ("a.b.c".toList) ≠ ("a.b.c".toList) := by
  decide

/-- Claim C1 (amended): the collapse step keeps the last
`min (n - 1) 5` labels of an `n`-label domain, i.e. it drops the leading
labels beyond the 5th from the right and always additionally drops at least
one leading label; a domain with 5 or fewer labels thus loses exactly its
first label, it is not unchanged. -/
theorem C1_amended (d : Str) :
    blCollapse d =
      joinDots ((splitDots d).drop (max 1 ((splitDots d).length - 5))) :=
  blCollapse_eq d

/-- Claim C3 (counterexample): with blocklist `{"f"}` and domain
`a.b.c.d.e.f` (6 labels), the blocklist entry is reached in exactly `k = 4`
suffix-strip steps after the spec's collapse (to `b.c.d.e.f`), so the spec's
algorithm returns `("f", true)`, but `domain_in_blocklist` returns
`(None, False)`. -/
theorem C3_counterexample :
    domain_in_blocklist [("f".toList)] ("a.b.c.d.e.f".toList) = (none, false) ∧
    specClassify 4 [("f".toList)] ("a.b.c.d.e.f".toList) =
      (some ("f".toList), true) := by
  decide

/-- Claim C3 (amended): provided the empty string is not a blocklist entry,
`domain_in_blocklist` equals the spec's suffix-stepping algorithm with a
bound of 4 stripping iterations for domains of at most 5 labels, but with a
bound of only 3 stripping iterations for domains of 6 or more labels (the
code spends its first loop check on the collapse result, so a blocklist entry
first reached at the 4th strip after the collapse is missed there). -/
theorem C3_amended (T : List Str) (d : Str) (hT : ([] : Str) ∉ T) :
    domain_in_blocklist T d =
      specClassify (if (splitDots d).length ≤ 5 then 4 else 3) T d := by
  unfold domain_in_blocklist specClassify
  by_cases hmem : d ∈ T
  · simp [hmem]
  · simp only [if_neg hmem]
    by_cases h5 : (splitDots d).length ≤ 5
    · rw [if_pos h5]
      have hsc : specCollapse d = d := by
        simp only [specCollapse]
        have h0 : (splitDots d).length - 5 = 0 := by omega
        rw [h0, List.drop_zero, joinDots_splitDots]
      rw [hsc]
      rcases hps : splitDots d with _ | ⟨p, ps2⟩
      · exact absurd hps (splitDots_ne_nil d)
      · have hp : '.' ∉ p := splitDots_dot_not_mem d p (by rw [hps]; exact List.mem_cons_self _ _)
        have hd : d = joinDots (p :: ps2) := by rw [← hps, joinDots_splitDots]
        have hcol : blCollapse d = joinDots ps2 := by
          rw [blCollapse_eq, hps]
          have hlen : (p :: ps2).length ≤ 6 := by
            rw [← hps]; omega
          have hm : max 1 ((p :: ps2).length - 5) = 1 := by
            simp only [List.length_cons] at hlen ⊢
            omega
          rw [hm, List.drop_one, List.tail_cons]
        rw [hcol]
        cases ps2 with
        | nil =>
          have hpmem : p ∉ T := by rw [hd] at hmem; exact hmem
          have hnone : splitRest '.' p = none := (splitRest_eq_none '.' p).mpr hp
          have e1 : blLoop T 4 (joinDots []) = (none, false) := rfl
          have e2 : specLoop T 4 d = (none, false) := by
            have hd2 : d = p := hd
            rw [hd2, show (4 : Nat) = 3 + 1 from rfl, specLoop_succ, if_neg hpmem, hnone]
          rw [e1, e2]
        | cons q qs =>
          have hdmem : joinDots (p :: q :: qs) ∉ T := by rw [hd] at hmem; exact hmem
          have hrest : splitRest '.' (joinDots (p :: q :: qs)) = some (joinDots (q :: qs)) :=
            splitRest_joinSep '.' p (q :: qs) hp
          have e2 : specLoop T 4 d = specLoop T 3 (joinDots (q :: qs)) := by
            rw [hd, show (4 : Nat) = 3 + 1 from rfl, specLoop_succ, if_neg hdmem, hrest]
          rw [e2]
          exact blLoop_eq_specLoop T hT (q :: qs) (by simp)
            (fun r hr => splitDots_dot_not_mem d r (by rw [hps]; exact List.mem_cons_of_mem p hr)) 3
    · rw [if_neg h5]
      have hm : max 1 ((splitDots d).length - 5) = (splitDots d).length - 5 := by omega
      have hcol : blCollapse d = joinDots ((splitDots d).drop ((splitDots d).length - 5)) := by
        rw [blCollapse_eq, hm]
      have hsc : specCollapse d = joinDots ((splitDots d).drop ((splitDots d).length - 5)) := rfl
      rw [hcol, hsc]
      have hne : (splitDots d).drop ((splitDots d).length - 5) ≠ [] := by
        have hlen : ((splitDots d).drop ((splitDots d).length - 5)).length = 5 := by
          rw [List.length_drop]
          omega
        intro h
        rw [h] at hlen
        simp at hlen
      exact blLoop_eq_specLoop T hT _ hne
        (fun r hr => splitDots_dot_not_mem d r (List.mem_of_mem_drop hr)) 3

theorem C3_witness :
    (([] : Str) ∉ [("b.c".toList)]) ∧
    domain_in_blocklist [("b.c".toList)] ("a.b.c".toList) =
      specClassify (if (splitDots ("a.b.c".toList)).length ≤ 5 then 4 else 3)
        [("b.c".toList)] ("a.b.c".toList) :=
  ⟨by decide, C3_amended [("b.c".toList)] ("a.b.c".toList) (by decide)⟩

/-- Claim C6: on a malformed domain string (empty, or containing no dot) that
is not itself a blocklist member, `domain_in_blocklist` returns
`(None, False)`; in this total model it trivially raises no exception. -/
theorem C6_no_raise (T : List Str) (d : Str) (hmem : d ∉ T)
    (hmal : d = [] ∨ '.' ∉ d) :
    domain_in_blocklist T d = (none, false) := by
  unfold domain_in_blocklist
  rw [if_neg hmem]
  have hcol : blCollapse d = [] := by
    rcases hmal with h | h
    · subst h; rfl
    · rw [blCollapse_eq]
      have h1 : splitDots d = [d] := splitSep_eq_single '.' d h
      rw [h1]
      rfl
  rw [hcol]
  rfl

theorem C6_witness :
    ("abc".toList) ∉ ([] : List Str) ∧
    (("abc".toList) = ([] : Str) ∨ '.' ∉ ("abc".toList)) ∧
    domain_in_blocklist ([] : List Str) ("abc".toList) = (none, false) :=
  ⟨by decide, by decide,
    C6_no_raise ([] : List Str) ("abc".toList) (by decide) (by decide)⟩

/-- Claim C10: whenever `domain_in_blocklist` returns a suffix `s`, `s` is a
blocklist member and a dot-delimited suffix of the input (the join of a tail
of its label list, the whole domain included); and the returned boolean is
`true` exactly when the returned suffix is not `None`. -/
theorem C10_invariant (T : List Str) (d : Str) :
    ((domain_in_blocklist T d).2 = true ↔ (domain_in_blocklist T d).1 ≠ none) ∧
    ∀ s, (domain_in_blocklist T d).1 = some s →
      s ∈ T ∧ ∃ k, s = joinDots ((splitDots d).drop k) := by
  unfold domain_in_blocklist
  by_cases hmem : d ∈ T
  · rw [if_pos hmem]
    refine ⟨by simp, ?_⟩
    intro s hs
    simp only [Option.some.injEq] at hs
    subst hs
    exact ⟨hmem, 0, by rw [List.drop_zero, joinDots_splitDots]⟩
  · rw [if_neg hmem]
    have hcol : blCollapse d =
        joinDots ((splitDots d).drop (max 1 ((splitDots d).length - 5))) :=
      blCollapse_eq d
    rw [hcol]
    rcases blLoop_result T ((splitDots d).drop (max 1 ((splitDots d).length - 5)))
        (fun r hr => splitDots_dot_not_mem d r (List.mem_of_mem_drop hr)) 4 with
      h | ⟨m, s0, h1, h2, h3⟩
    · rw [h]
      exact ⟨by simp, fun s hs => by simp at hs⟩
    · rw [h1]
      refine ⟨by simp, ?_⟩
      intro s hs
      simp only [Option.some.injEq] at hs
      subst hs
      refine ⟨h2, max 1 ((splitDots d).length - 5) + m, ?_⟩
      rw [← List.drop_drop]
      exact h3

theorem C10_witness :
    ("b.c".toList) ∈ [("b.c".toList)] ∧
    ∃ k, ("b.c".toList) = joinDots ((splitDots ("a.b.c".toList)).drop k) :=
  (C10_invariant [("b.c".toList)] ("a.b.c".toList)).2 ("b.c".toList) (by decide)

/-! ### Consent interaction heuristic (`crawl.py`, `allow_cookies`) -/

/-- Outcome of one probe
(`WebDriverWait(driver, 0.1).until(EC.element_to_be_clickable(...))`): the
wait either produces a clickable element, or times out, or raises some other
interaction error (both caught by the bare `except Exception: pass`). -/
inductive ProbeResult (α : Type) where
  | found (e : α)
  | timedOut
  | interactionError
deriving DecidableEq

/-- `crawl.py` lines 103-124: the loop of `allow_cookies`.  The accumulator
models the `allow_all_cookies` variable (`None` initially, kept unchanged
when a probe raises); the returned list collects the `.click()` calls
performed, and the boolean is the function's return value. -/
def allowCookiesLoop {α : Type} (probe : String → ProbeResult α) :
    Option α → List String → List α × Bool
  | _, [] => ([], false)
  | acc, accept_word :: rest =>
    let acc2 := match probe accept_word with
      | .found e => some e
      | _ => acc
    match acc2 with
    | some e => ([e], true)
    | none => allowCookiesLoop probe none rest

/-- `crawl.py` lines 96-124: `allow_cookies(driver)`, with the phrase file and
the page interactions abstracted into `accept_words` and `probe`. -/
def allow_cookies {α : Type} (probe : String → ProbeResult α)
    (accept_words : List String) : List α × Bool :=
  allowCookiesLoop probe none accept_words

/-- Claim C5: phrases are probed strictly in list order; every earlier probe
that times out or raises is treated as not-found without propagating; the
first phrase whose probe yields a clickable element is clicked (exactly that
element) and `allow_cookies` returns `true` immediately, independently of all
later phrases; and when every probe in the whole list times out or raises,
`allow_cookies` clicks nothing and returns `false`. -/
theorem C5_consent_order {α : Type} (probe : String → ProbeResult α)
    (ws1 ws2 : List String) (w : String) (e : α) :
    ((∀ v ∈ ws1, probe v = .timedOut ∨ probe v = .interactionError) →
      probe w = .found e →
      allow_cookies probe (ws1 ++ w :: ws2) = ([e], true)) ∧
    ((∀ v ∈ ws1 ++ w :: ws2, probe v = .timedOut ∨ probe v = .interactionError) →
      allow_cookies probe (ws1 ++ w :: ws2) = ([], false)) := by
  constructor
  · intro hfail hw
    unfold allow_cookies
    induction ws1 with
    | nil =>
      simp only [List.nil_append, allowCookiesLoop, hw]
    | cons v vs ih =>
      have hv : probe v = .timedOut ∨ probe v = .interactionError :=
        hfail v (List.mem_cons_self v vs)
      have htail : ∀ u ∈ vs, probe u = .timedOut ∨ probe u = .interactionError :=
        fun u hu => hfail u (List.mem_cons_of_mem v hu)
      rcases hv with hv | hv
      · simpa only [List.cons_append, allowCookiesLoop, hv] using ih htail
      · simpa only [List.cons_append, allowCookiesLoop, hv] using ih htail
  · intro hfail
    unfold allow_cookies
    have haux : ∀ (ws : List String),
        (∀ v ∈ ws, probe v = .timedOut ∨ probe v = .interactionError) →
        allowCookiesLoop probe none ws = ([], false) := by
      intro ws
      induction ws with
      | nil => intro _; rfl
      | cons v vs ih =>
        intro h
        have hv := h v (List.mem_cons_self v vs)
        have htail := fun u hu => h u (List.mem_cons_of_mem v hu)
        rcases hv with hv | hv
        · simpa only [allowCookiesLoop, hv] using ih htail
        · simpa only [allowCookiesLoop, hv] using ih htail
    exact haux _ hfail

theorem C5_witness :
    ((∀ v ∈ ["accept all"],
        (fun s => if s = "accept all" then ProbeResult.timedOut
          else if s = "agree" then ProbeResult.found 7
          else ProbeResult.interactionError) v = ProbeResult.timedOut ∨
        (fun s => if s = "accept all" then ProbeResult.timedOut
          else if s = "agree" then ProbeResult.found 7
          else ProbeResult.interactionError) v = ProbeResult.interactionError) ∧
      (fun s => if s = "accept all" then ProbeResult.timedOut
        else if s = "agree" then ProbeResult.found 7
        else ProbeResult.interactionError) "agree" = ProbeResult.found 7) ∧
    allow_cookies
      (fun s => if s = "accept all" then ProbeResult.timedOut
        else if s = "agree" then ProbeResult.found 7
        else ProbeResult.interactionError)
      (["accept all"] ++ "agree" :: ["later phrase"]) = ([7], true) :=
  ⟨⟨by decide, by decide⟩,
    (C5_consent_order
      (fun s => if s = "accept all" then ProbeResult.timedOut
        else if s = "agree" then ProbeResult.found 7
        else ProbeResult.interactionError)
      ["accept all"] ["later phrase"] "agree" 7).1 (by decide) (by decide)⟩

/-! ### Blocklist index (`analyse.py`, `read_blocklist`) -/

/-- The nested blocklist document: `categories` maps a category name to a
list of items; an item maps entity names to url-kind groups; a url-kind group
maps a url kind to the list of its domains.  Python dicts are modelled as
association lists in iteration (insertion) order. -/
structure Blocklist where
  categories : List (String × List (List (String × List (String × List String))))

/-- One `tracker_domains[domain] = entityname` assignment, as a dictionary
update. -/
def insertReg (td : String → Option String) (p : String × String) :
    String → Option String :=
  fun x => if x = p.1 then some p.2 else td x

/-- `analyse.py` lines 22-44: `read_blocklist()`, with the JSON document as
input; the resulting dict is modelled by its lookup function. -/
def read_blocklist (bl : Blocklist) : String → Option String :=
  bl.categories.foldl (fun td cat =>
    cat.2.foldl (fun td item =>
      item.foldl (fun td entry =>
        entry.2.foldl (fun td urls =>
          if urls.1 = "performance" then td
          else urls.2.foldl (fun td domain => insertReg td (domain, entry.1)) td)
          td)
        td)
      td)
    (fun _ => none)

/-- The flat list of `(domain, entityName)` registrations made by
`read_blocklist`, in execution order, skipping `performance` entries. -/
def registrations (bl : Blocklist) : List (String × String) :=
  bl.categories.flatMap (fun cat =>
    cat.2.flatMap (fun item =>
      item.flatMap (fun entry =>
        entry.2.flatMap (fun urls =>
          if urls.1 = "performance" then []
          else urls.2.map (fun domain => (domain, entry.1))))))

/-- Lookup of the last binding of a key in a registration list. -/
def lookupLast (l : List (String × String)) (d : String) : Option String :=
  (l.reverse.find? (fun p => p.1 == d)).map (fun p => p.2)

theorem foldl_insertReg_eq (l : List (String × String)) :
    ∀ (td : String → Option String) (d : String),
      List.foldl insertReg td l d =
        match lookupLast l d with
        | some e => some e
        | none => td d := by
  induction l with
  | nil => intro td d; simp [lookupLast]
  | cons p ps ih =>
    intro td d
    simp only [List.foldl_cons, ih, lookupLast, List.reverse_cons, List.find?_append]
    cases hfind : List.find? (fun q => q.1 == d) ps.reverse with
    | some q => simp
    | none =>
      by_cases hpd : p.1 = d
      · simp [List.find?_cons, hpd, insertReg]
      · simp [List.find?_cons, hpd, insertReg, Ne.symm hpd]

theorem foldl_flatMap {α β γ : Type} (f : β → α → β) (g : γ → List α) :
    ∀ (l : List γ) (b : β),
      List.foldl f b (l.flatMap g) =
        List.foldl (fun b c => List.foldl f b (g c)) b l := by
  intro l
  induction l with
  | nil => intro b; rfl
  | cons c cs ih =>
    intro b
    simp only [List.flatMap_cons, List.foldl_append, List.foldl_cons]
    exact ih _

theorem read_blocklist_eq_foldl_registrations (bl : Blocklist) :
    read_blocklist bl = List.foldl insertReg (fun _ => none) (registrations bl) := by
  unfold read_blocklist registrations
  rw [foldl_flatMap]
  apply List.foldl_ext
  intro td cat _
  rw [foldl_flatMap]
  apply List.foldl_ext
  intro td item _
  rw [foldl_flatMap]
  apply List.foldl_ext
  intro td entry _
  rw [foldl_flatMap]
  apply List.foldl_ext
  intro td urls _
  by_cases hperf : urls.1 = "performance"
  · simp [hperf]
  · simp only [if_neg hperf, List.foldl_map]

/-- Claim C8: `read_blocklist` maps a domain to exactly the entity of the
last registration of that domain in the nested traversal (last write wins),
where the registrations are, in order, one `(domain, entityName)` pair per
domain listed under every url kind except `"performance"`, whose entries are
skipped entirely (see `registrations`). -/
theorem C8_blocklist_lookup (bl : Blocklist) (d : String) :
    read_blocklist bl d = lookupLast (registrations bl) d := by
  rw [read_blocklist_eq_foldl_registrations, foldl_insertReg_eq]
  cases lookupLast (registrations bl) d <;> rfl

/-! ### Redirection & prevalence aggregator (`analyse.py`, `prevalence`) -/

/-- One row of the analysis dataframe, restricted to what `prevalence` reads:
its `crawl_mode` cell and, per column name, a list-valued cell. -/
structure VisitRow where
  crawl_mode : String
  cols : String → List String

/-- `analyse.py` lines 477-480: select the `target` column of the rows whose
`crawl_mode` equals `mode`, and flatten (`chain.from_iterable`). -/
def prevInput (rows : List VisitRow) (mode target : String) : List String :=
  ((rows.filter (fun r => r.crawl_mode = mode)).map (fun r => r.cols target)).flatten

/-- One step of `collections.Counter`: increment the count of `k`, keeping
the dict's insertion order; a new key is appended at the end. -/
def addItem {K : Type} [DecidableEq K] : List (K × Nat) → K → List (K × Nat)
  | [], k => [(k, 1)]
  | (k1, c) :: t, k => if k1 = k then (k1, c + 1) :: t else (k1, c) :: addItem t k

/-- Model of `collections.Counter(l)` as its item list in insertion
(first-encounter) order. -/
def counterItems {K : Type} [DecidableEq K] (l : List K) : List (K × Nat) :=
  l.foldl addItem []

/-- `analyse.py` lines 459-484: `prevalence(dataframe, mode, target)` returns
the `Counter` of the flattened target column. -/
def prevalence (rows : List VisitRow) (mode target : String) : List (String × Nat) :=
  counterItems (prevInput rows mode target)

/-- Stable insertion into a descending-sorted list: the new element goes
before the first element whose key is not greater, so earlier-input elements
stay before equal-keyed later ones. -/
def insertDescBy {α β : Type} [LinearOrder β] (key : α → β) (x : α) :
    List α → List α
  | [] => [x]
  | y :: t => if key y ≤ key x then x :: y :: t else y :: insertDescBy key x t

/-- Model of Python's stable `sorted(l, key=key, reverse=True)`, which is
also what `Counter.most_common` performs. -/
def pySortDesc {α β : Type} [LinearOrder β] (key : α → β) : List α → List α
  | [] => []
  | x :: t => insertDescBy key x (pySortDesc key t)

/-- `Counter.most_common(None)`: the full ranking. -/
def most_common {K : Type} (c : List (K × Nat)) : List (K × Nat) :=
  pySortDesc (fun p => p.2) c

/-- `Counter.most_common(n)` as used by the report generators (`n = 10`). -/
def most_common_top {K : Type} (n : Nat) (c : List (K × Nat)) : List (K × Nat) :=
  (most_common c).take n

/-- First-occurrence index of `a` (length of the list when absent). -/
def firstIdx {K : Type} [DecidableEq K] (a : K) : List K → Nat
  | [] => 0
  | x :: t => if x = a then 0 else firstIdx a t + 1

/-- One step of first-occurrence key collection. -/
def seenAdd {K : Type} [DecidableEq K] (s : List K) (k : K) : List K :=
  if k ∈ s then s else s ++ [k]

/-- The keys of a `Counter`, in first-encounter order. -/
def firstOccs {K : Type} [DecidableEq K] (l : List K) : List K :=
  l.foldl seenAdd []

theorem sublist_insertDescBy {α β : Type} [LinearOrder β] (key : α → β)
    (x : α) (l : List α) : l.Sublist (insertDescBy key x l) := by
  induction l with
  | nil => simp [insertDescBy]
  | cons y t ih =>
    simp only [insertDescBy]
    split
    · exact List.sublist_cons_self x (y :: t)
    · exact List.Sublist.cons₂ y ih

theorem insertDescBy_decomp {α β : Type} [LinearOrder β] (key : α → β)
    (x : α) (l : List α) :
    ∃ l1 l2, insertDescBy key x l = l1 ++ x :: l2 ∧ l = l1 ++ l2 ∧
      ∀ u ∈ l1, key x < key u := by
  induction l with
  | nil => exact ⟨[], [], rfl, rfl, by simp⟩
  | cons y t ih =>
    simp only [insertDescBy]
    by_cases h : key y ≤ key x
    · exact ⟨[], y :: t, by simp [h], rfl, by simp⟩
    · rcases ih with ⟨l1, l2, h1, h2, h3⟩
      refine ⟨y :: l1, l2, by simp [h, h1], by simp [h2], ?_⟩
      intro u hu
      rcases List.mem_cons.mp hu with hu | hu
      · subst hu; exact lt_of_not_ge h
      · exact h3 u hu

theorem pair_sublist_pySortDesc {α β : Type} [LinearOrder β] (key : α → β) :
    ∀ (l : List α) (x y : α), [x, y].Sublist l → key x = key y →
      [x, y].Sublist (pySortDesc key l) := by
  intro l
  induction l with
  | nil => intro x y h _; simp at h
  | cons z t ih =>
    intro x y h hkey
    cases h with
    | cons _ h2 =>
      exact (ih x y h2 hkey).trans (sublist_insertDescBy key z (pySortDesc key t))
    | cons₂ _ h2 =>
      -- here z = x and [y] <+ t
      have hy : y ∈ pySortDesc key t := by
        have hyt : y ∈ t := List.singleton_sublist.mp h2
        -- membership is preserved by the sort
        clear h2 ih
        induction t with
        | nil => simp at hyt
        | cons w u ihu =>
          rcases List.mem_cons.mp hyt with hw | hw
          · subst hw
            simp only [pySortDesc]
            rcases insertDescBy_decomp key y (pySortDesc key u) with ⟨l1, l2, hd, _, _⟩
            rw [hd]
            exact List.mem_append_right l1 (List.mem_cons_self y l2)
          · have hmem := ihu hw
            simp only [pySortDesc]
            rcases insertDescBy_decomp key w (pySortDesc key u) with ⟨l1, l2, hd, he, _⟩
            rw [hd]
            rw [he] at hmem
            rcases List.mem_append.mp hmem with hm | hm
            · exact List.mem_append_left _ hm
            · exact List.mem_append_right l1 (List.mem_cons_of_mem w hm)
      simp only [pySortDesc]
      rcases insertDescBy_decomp key z (pySortDesc key t) with ⟨l1, l2, hd, he, hgt⟩
      rw [hd]
      have hy2 : y ∈ l2 := by
        rw [he] at hy
        rcases List.mem_append.mp hy with hm | hm
        · exact absurd hkey (by have := hgt y hm; exact ne_of_lt this)
        · exact hm
      have h1 : List.Sublist [z, y] (z :: l2) :=
        List.Sublist.cons₂ z (List.singleton_sublist.mpr hy2)
      exact h1.trans (List.sublist_append_right l1 (z :: l2))

theorem addItem_of_mem {K : Type} [DecidableEq K] (cnt : K → Nat) (x : K) :
    ∀ (ks : List K), ks.Nodup → x ∈ ks →
      addItem (ks.map fun k => (k, cnt k)) x =
        ks.map (fun k => (k, if k = x then cnt k + 1 else cnt k)) := by
  intro ks
  induction ks with
  | nil => intro _ hx; simp at hx
  | cons k ks ih =>
    intro hnd hx
    simp only [List.map_cons, addItem]
    by_cases hk : k = x
    · rw [if_pos hk]
      have hxks : x ∉ ks := by
        subst hk
        exact (List.nodup_cons.mp hnd).1
      have : ks.map (fun k2 => (k2, cnt k2)) =
          ks.map (fun k2 => (k2, if k2 = x then cnt k2 + 1 else cnt k2)) := by
        apply List.map_congr_left
        intro k2 hk2
        have : k2 ≠ x := fun h => hxks (h ▸ hk2)
        simp [this]
      rw [← this, if_pos hk]
    · rw [if_neg hk, if_neg hk]
      have hx2 : x ∈ ks := by
        rcases List.mem_cons.mp hx with h | h
        · exact absurd h.symm hk
        · exact h
      rw [ih (List.nodup_cons.mp hnd).2 hx2]

theorem addItem_of_not_mem {K : Type} [DecidableEq K] (cnt : K → Nat) (x : K) :
    ∀ (ks : List K), x ∉ ks →
      addItem (ks.map fun k => (k, cnt k)) x =
        (ks.map fun k => (k, cnt k)) ++ [(x, 1)] := by
  intro ks
  induction ks with
  | nil => intro _; rfl
  | cons k ks ih =>
    intro hx
    have hk : k ≠ x := fun h => hx (by simp [h])
    simp only [List.map_cons, addItem, if_neg hk, List.cons_append]
    rw [ih (fun h => hx (List.mem_cons_of_mem k h))]

theorem foldl_addItem_eq {K : Type} [DecidableEq K] :
    ∀ (l : List K) (ks : List K) (cnt : K → Nat), ks.Nodup →
      List.foldl addItem (ks.map fun k => (k, cnt k)) l =
        (List.foldl seenAdd ks l).map
          (fun k => (k, (if k ∈ ks then cnt k else 0) + l.count k)) := by
  intro l
  induction l with
  | nil =>
    intro ks cnt hnd
    simp only [List.foldl_nil]
    apply List.map_congr_left
    intro k hk
    simp [hk]
  | cons x l2 ih =>
    intro ks cnt hnd
    simp only [List.foldl_cons]
    by_cases hx : x ∈ ks
    · rw [addItem_of_mem cnt x ks hnd hx]
      have hseen : seenAdd ks x = ks := by simp [seenAdd, hx]
      rw [show (fun k => (k, if k = x then cnt k + 1 else cnt k)) =
            (fun k => (k, (fun k2 => if k2 = x then cnt k2 + 1 else cnt k2) k)) from rfl]
      rw [ih ks (fun k2 => if k2 = x then cnt k2 + 1 else cnt k2) hnd, hseen]
      apply List.map_congr_left
      intro k hk
      simp only [Prod.mk.injEq, true_and]
      by_cases hkx : k = x
      · subst hkx
        simp [hx, List.count_cons]
        omega
      · have hxk : x ≠ k := Ne.symm hkx
        simp [hkx, hxk, List.count_cons]
    · rw [addItem_of_not_mem cnt x ks hx]
      have hmap : (ks.map fun k => (k, cnt k)) ++ [(x, 1)] =
          (ks ++ [x]).map (fun k => (k, if k = x then 1 else cnt k)) := by
        rw [List.map_append]
        congr 1
        · apply List.map_congr_left
          intro k hk
          have : k ≠ x := fun h => hx (h ▸ hk)
          simp [this]
        · simp
      rw [hmap]
      have hnd2 : (ks ++ [x]).Nodup := by
        rw [List.nodup_append]
        exact ⟨hnd, List.nodup_singleton x, by simpa using hx⟩
      have hseen : seenAdd ks x = ks ++ [x] := by simp [seenAdd, hx]
      rw [ih (ks ++ [x]) (fun k => if k = x then 1 else cnt k) hnd2, hseen]
      apply List.map_congr_left
      intro k hk
      simp only [Prod.mk.injEq, true_and]
      by_cases hkx : k = x
      · subst hkx
        simp [hx, List.count_cons]
        omega
      · have hxk : x ≠ k := Ne.symm hkx
        simp [hkx, hxk, List.count_cons]

theorem counterItems_eq {K : Type} [DecidableEq K] (l : List K) :
    counterItems l = (firstOccs l).map (fun k => (k, l.count k)) := by
  unfold counterItems firstOccs
  have h0 : ([] : List (K × Nat)) = ([] : List K).map (fun k => (k, (fun _ => 0) k)) := rfl
  rw [h0, foldl_addItem_eq l [] (fun _ => 0) List.nodup_nil]
  apply List.map_congr_left
  intro k hk
  simp

theorem foldl_seenAdd_pair {K : Type} [DecidableEq K] (a b : K) (hab : a ≠ b) :
    ∀ (l ks : List K),
      ([a, b].Sublist ks → [a, b].Sublist (List.foldl seenAdd ks l)) ∧
      (a ∈ ks → b ∉ ks → b ∈ l → [a, b].Sublist (List.foldl seenAdd ks l)) ∧
      (a ∉ ks → b ∉ ks → firstIdx a l < firstIdx b l → b ∈ l →
        [a, b].Sublist (List.foldl seenAdd ks l)) := by
  intro l
  induction l with
  | nil =>
    intro ks
    refine ⟨fun h => h, fun _ _ hb => absurd hb (by simp), fun _ _ _ hb => absurd hb (by simp)⟩
  | cons x l2 ih =>
    intro ks
    have hsub : ks.Sublist (seenAdd ks x) := by
      unfold seenAdd
      split
      · exact List.Sublist.refl ks
      · exact List.sublist_append_left ks [x]
    refine ⟨?_, ?_, ?_⟩
    · intro h
      exact (ih (seenAdd ks x)).1 (h.trans hsub)
    · intro ha hb hbl
      by_cases hxb : x = b
      · subst hxb
        have hseen : seenAdd ks x = ks ++ [x] := by simp [seenAdd, hb]
        have hpair : [a, x].Sublist (ks ++ [x]) := by
          have h1 : [a].Sublist ks := List.singleton_sublist.mpr ha
          exact h1.append (List.Sublist.refl [x])
        rw [show List.foldl seenAdd ks (x :: l2) = List.foldl seenAdd (seenAdd ks x) l2 from rfl,
          hseen]
        exact (ih (ks ++ [x])).1 (by rw [← hseen]; exact hseen ▸ hpair)
      · have hbl2 : b ∈ l2 := by
          rcases List.mem_cons.mp hbl with h | h
          · exact absurd h.symm hxb
          · exact h
        have ha2 : a ∈ seenAdd ks x := by
          unfold seenAdd
          split
          · exact ha
          · exact List.mem_append_left [x] ha
        have hb2 : b ∉ seenAdd ks x := by
          unfold seenAdd
          split
          · exact hb
          · intro hmem
            rcases List.mem_append.mp hmem with h | h
            · exact hb h
            · exact hxb (List.mem_singleton.mp h).symm
        exact (ih (seenAdd ks x)).2.1 ha2 hb2 hbl2
    · intro ha hb hidx hbl
      by_cases hxa : x = a
      · subst hxa
        have hseen : seenAdd ks x = ks ++ [x] := by simp [seenAdd, ha]
        have hbx : b ≠ x := Ne.symm hab
        have hbl2 : b ∈ l2 := by
          rcases List.mem_cons.mp hbl with h | h
          · exact absurd h hbx
          · exact h
        have ha2 : x ∈ seenAdd ks x := by
          rw [hseen]
          exact List.mem_append_right ks (List.mem_singleton.mpr rfl)
        have hb2 : b ∉ seenAdd ks x := by
          rw [hseen]
          intro hmem
          rcases List.mem_append.mp hmem with h | h
          · exact hb h
          · exact hbx (List.mem_singleton.mp h)
        exact (ih (seenAdd ks x)).2.1 ha2 hb2 hbl2
      · by_cases hxb : x = b
        · subst hxb
          have h0 : firstIdx x (x :: l2) = 0 := by simp [firstIdx]
          rw [h0] at hidx
          exact absurd hidx (Nat.not_lt_zero _)
        · have hidx2 : firstIdx a l2 < firstIdx b l2 := by
            have h1 : firstIdx a (x :: l2) = firstIdx a l2 + 1 := by
              simp [firstIdx, hxa]
            have h2 : firstIdx b (x :: l2) = firstIdx b l2 + 1 := by
              simp [firstIdx, hxb]
            rw [h1, h2] at hidx
            omega
          have hbl2 : b ∈ l2 := by
            rcases List.mem_cons.mp hbl with h | h
            · exact absurd h.symm hxb
            · exact h
          have ha2 : a ∉ seenAdd ks x := by
            unfold seenAdd
            split
            · exact ha
            · intro hmem
              rcases List.mem_append.mp hmem with h | h
              · exact ha h
              · exact hxa (List.mem_singleton.mp h).symm
          have hb2 : b ∉ seenAdd ks x := by
            unfold seenAdd
            split
            · exact hb
            · intro hmem
              rcases List.mem_append.mp hmem with h | h
              · exact hb h
              · exact hxb (List.mem_singleton.mp h).symm
          exact (ih (seenAdd ks x)).2.2 ha2 hb2 hidx2 hbl2

theorem counter_pair {K : Type} [DecidableEq K] (l : List K) (a b : K)
    (hab : a ≠ b) (hb : b ∈ l) (hidx : firstIdx a l < firstIdx b l) :
    [(a, l.count a), (b, l.count b)].Sublist (counterItems l) := by
  rw [counterItems_eq]
  have h := (foldl_seenAdd_pair a b hab l []).2.2 (by simp) (by simp) hidx hb
  have h2 := h.map (fun k => (k, l.count k))
  simpa using h2

/-- Claim C9: whenever two keys of the prevalence count have equal counts and
the first occurrence of `a` in the flattened target column precedes the first
occurrence of `b`, the ranked table (`Counter.most_common`, a stable
descending sort of the counter built in first-encounter order) keeps `a`'s
entry before `b`'s entry. -/
theorem C9_ranking_stable (rows : List VisitRow) (mode target : String)
    (a b : String) (hab : a ≠ b)
    (hb : b ∈ prevInput rows mode target)
    (hidx : firstIdx a (prevInput rows mode target) <
      firstIdx b (prevInput rows mode target))
    (hcnt : (prevInput rows mode target).count a =
      (prevInput rows mode target).count b) :
    [(a, (prevInput rows mode target).count a),
     (b, (prevInput rows mode target).count b)].Sublist
      (most_common (prevalence rows mode target)) := by
  unfold most_common prevalence
  exact pair_sublist_pySortDesc (fun p => p.2) _ _ _
    (counter_pair (prevInput rows mode target) a b hab hb hidx) hcnt

theorem C9_witness :
    ("x.com" ≠ "y.com") ∧
    ("y.com" ∈ prevInput [⟨"Desktop", fun _ => ["x.com", "y.com", "x.com", "y.com"]⟩]
      "Desktop" "third_party_domains") ∧
    (firstIdx ("x.com") (prevInput [⟨"Desktop", fun _ => ["x.com", "y.com", "x.com", "y.com"]⟩]
        "Desktop" "third_party_domains") <
      firstIdx ("y.com") (prevInput [⟨"Desktop", fun _ => ["x.com", "y.com", "x.com", "y.com"]⟩]
        "Desktop" "third_party_domains")) ∧
    [("x.com", (prevInput [⟨"Desktop", fun _ => ["x.com", "y.com", "x.com", "y.com"]⟩]
        "Desktop" "third_party_domains").count ("x.com")),
     ("y.com", (prevInput [⟨"Desktop", fun _ => ["x.com", "y.com", "x.com", "y.com"]⟩]
        "Desktop" "third_party_domains").count ("y.com"))].Sublist
      (most_common (prevalence [⟨"Desktop", fun _ => ["x.com", "y.com", "x.com", "y.com"]⟩]
        "Desktop" "third_party_domains")) :=
  ⟨by decide, by decide, by decide,
    C9_ranking_stable [⟨"Desktop", fun _ => ["x.com", "y.com", "x.com", "y.com"]⟩]
      "Desktop" "third_party_domains" "x.com" "y.com"
      (by decide) (by decide) (by decide) (by decide)⟩

/-! ### Cookie lifespan computation
(`analyse.py`, `find_cookies_longest_lifespans`, lines 733-792) -/

/-- A Python call that either returns normally or raises `ValueError`. -/
inductive PyResult (α : Type) where
  | ok (a : α)
  | valueError
deriving DecidableEq

/-- Which cookie attribute determined the lifespan. -/
inductive Source where
  | maxAge
  | expires
deriving DecidableEq

/-- The fields `datetime.strptime` produces for the formats used here
(whole seconds; the weekday index is parsed but not validated against the
date, as in CPython). -/
structure DateTuple where
  weekday : Nat
  day : Nat
  month : Nat
  year : Nat
  hour : Nat
  minute : Nat
  second : Nat
deriving DecidableEq

/-- `dict.get(k)` on a cookie attribute map. -/
def dictGet (m : List (Str × Str)) (k : Str) : Option Str :=
  (m.find? (fun p => p.1 == k)).map (fun p => p.2)

/-- Python truthiness of an optional string: `None` and `""` are falsy. -/
def truthyOpt (v : Option Str) : Bool :=
  match v with
  | some s => !s.isEmpty
  | none => false

def digitVal (c : Char) : Nat := c.toNat - 48

def digitsToNat (ds : Str) : Nat := ds.foldl (fun a c => a * 10 + digitVal c) 0

/-- Python's leading/trailing-whitespace strip (spaces only suffice here). -/
def pyStripSpaces (s : Str) : Str :=
  ((s.dropWhile (fun c => c == ' ')).reverse.dropWhile (fun c => c == ' ')).reverse

/-- Model of Python's `float(str)` restricted to plain decimal numerals
(optional sign, integer digits, optional fractional part); exotic inputs
(exponents, `inf`, `nan`, underscores) are out of the model and map to
`none`. -/
def pyFloat (s : Str) : Option ℚ :=
  let t := pyStripSpaces s
  let neg : Bool := match t with | '-' :: _ => true | _ => false
  let u : Str :=
    match t with
    | '+' :: r => r
    | '-' :: r => r
    | r => r
  let ip := u.takeWhile Char.isDigit
  let rest := u.dropWhile Char.isDigit
  let val : Option ℚ :=
    match rest with
    | [] => if ip = [] then none else some ((digitsToNat ip : ℚ))
    | '.' :: fr =>
      if fr.all Char.isDigit ∧ (ip ≠ [] ∨ fr ≠ []) then
        some ((digitsToNat ip : ℚ) + (digitsToNat fr : ℚ) / (10 : ℚ) ^ fr.length)
      else none
    | _ => none
  match val with
  | some q => some (if neg then -q else q)
  | none => none

def weekdayAbbrs : List Str := ["Mon", "Tue", "Wed", "Thu", "Fri", "Sat", "Sun"].map String.toList

def monthAbbrs : List Str :=
  ["Jan", "Feb", "Mar", "Apr", "May", "Jun", "Jul", "Aug", "Sep", "Oct", "Nov", "Dec"].map
    String.toList

/-- Case-insensitive string equality (CPython compiles the strptime regex
with `IGNORECASE`). -/
def lowerEqStr (s t : Str) : Bool := s.map Char.toLower == t.map Char.toLower

/-- Match one of the 3-letter name abbreviations (`%a` / `%b`),
case-insensitively, returning its index and the rest of the input. -/
def matchAbbrev (abbrs : List Str) (s : Str) : Option (Nat × Str) :=
  match abbrs.findIdx? (fun ab => lowerEqStr (s.take 3) ab) with
  | some i => some (i, s.drop 3)
  | none => none

def matchChar (ch : Char) : Str → Option Str
  | c :: cs => if c = ch then some cs else none
  | [] => none

/-- A numeric strptime field: the CPython regexes try the valid two-digit
alternatives before the one-digit one; no backtracking is needed for the
formats used here because every numeric field is followed by a non-digit. -/
def matchNum2or1 (valid2 valid1 : Nat → Bool) : Str → Option (Nat × Str)
  | c1 :: c2 :: rest =>
    if c1.isDigit ∧ c2.isDigit ∧ valid2 (digitVal c1 * 10 + digitVal c2) then
      some (digitVal c1 * 10 + digitVal c2, rest)
    else if c1.isDigit ∧ valid1 (digitVal c1) then some (digitVal c1, c2 :: rest)
    else none
  | [c1] => if c1.isDigit ∧ valid1 (digitVal c1) then some (digitVal c1, []) else none
  | [] => none

/-- Exactly `n` digits (`%Y` is 4 digits, `%y` is 2 digits). -/
def matchDigits (n : Nat) (s : Str) : Option (Nat × Str) :=
  if (s.take n).length = n ∧ (s.take n).all Char.isDigit then
    some (digitsToNat (s.take n), s.drop n)
  else none

def isLeapYear (y : Nat) : Bool := y % 4 = 0 ∧ (y % 100 ≠ 0 ∨ y % 400 = 0)

def daysInMonth (m y : Nat) : Nat :=
  if m = 2 then (if isLeapYear y then 29 else 28)
  else if m = 4 ∨ m = 6 ∨ m = 9 ∨ m = 11 then 30 else 31

/-- Model of `datetime.strptime(s, '%a,%d%b%Y%H:%M:%S')` (and with `%y`
instead of `%Y` when `twoDigitYear` is set, applying CPython's 1969-2068
century rule).  The whole input must be consumed, and the day must exist in
the parsed month/year (as `datetime`'s constructor validates). -/
def strptimeFmt (twoDigitYear : Bool) (s : Str) : Option DateTuple := do
  let (wd, r1) ← matchAbbrev weekdayAbbrs s
  let r2 ← matchChar ',' r1
  let (d, r3) ← matchNum2or1 (fun n => decide (1 ≤ n ∧ n ≤ 31)) (fun n => decide (1 ≤ n)) r2
  let (mon, r4) ← matchAbbrev monthAbbrs r3
  let (y, r5) ←
    (if twoDigitYear then
      (matchDigits 2 r4).map (fun p => (if p.1 ≤ 68 then 2000 + p.1 else 1900 + p.1, p.2))
    else matchDigits 4 r4)
  let (h, r6) ← matchNum2or1 (fun n => decide (n ≤ 23)) (fun _ => true) r5
  let r7 ← matchChar ':' r6
  let (mi, r8) ← matchNum2or1 (fun n => decide (n ≤ 59)) (fun _ => true) r7
  let r9 ← matchChar ':' r8
  let (sec, r10) ← matchNum2or1 (fun n => decide (n ≤ 61)) (fun _ => true) r9
  if r10 = [] ∧ 1 ≤ y ∧ d ≤ daysInMonth (mon + 1) y then
    some ⟨wd, d, mon + 1, y, h, mi, sec⟩
  else none

/-- `analyse.py` line 767: `expiry.replace("-", "").replace(" ", "")`. -/
def removeDashSpace (e : Str) : Str :=
  e.filter (fun c => !(c == '-') && !(c == ' '))

/-- `analyse.py` lines 769-771: when the stripped string is long enough the
weekday name may be written in full; keep only its first 3 letters.  The
unpacking `day, rest = expiry.split(",")` raises `ValueError` unless the
string holds exactly one comma. -/
def weekdayFix (e : Str) : PyResult Str :=
  if 24 ≤ e.length then
    match splitSep ',' e with
    | [day, rest] => .ok (day.take 3 ++ ',' :: rest)
    | _ => .valueError
  else .ok e

/-- `analyse.py` lines 773-775: strip a trailing 4-character timezone suffix,
but only when the string's length is 21-24 and the final 4 characters hold no
colon. -/
def stripTZ (e : Str) : Str :=
  if (e.length = 21 ∨ e.length = 22 ∨ e.length = 23 ∨ e.length = 24) ∧
      ':' ∉ e.drop (e.length - 4) then
    e.take (e.length - 4)
  else e

/-- The normalization pipeline applied to a raw `Expires` value before
`strptime` (lines 767-775). -/
def parserInput (e : Str) : PyResult Str :=
  match weekdayFix (removeDashSpace e) with
  | .valueError => .valueError
  | .ok e2 => .ok (stripTZ e2)

/-- The 2-digit-year branch re-parses `datetime.now()` through `%y`, which
maps the current year through CPython's two-digit-century rule. -/
def nowRoundTrip2 (now : DateTuple) : DateTuple :=
  let yy := now.year % 100
  { now with year := if yy ≤ 68 then 2000 + yy else 1900 + yy }

/-- `analyse.py` lines 760-786: the body of the cookie loop.  `dateDiff`
abstracts `(expiry - current_time).total_seconds()`; `now` abstracts
`datetime.now()` truncated to whole seconds (the `strftime`/`strptime`
round trip of the 4-digit branch is the identity on whole seconds).
Returns the `(value, source)` appended to `lifespans`, `none` when the cookie
contributes nothing, or `valueError` when an uncaught `ValueError` is
raised. -/
def processCookie (dateDiff : DateTuple → DateTuple → ℚ) (now : DateTuple)
    (cookie_dict : List (Str × Str)) : PyResult (Option (ℚ × Source)) :=
  let max_age := dictGet cookie_dict ("Max-Age".toList)
  let expiry := dictGet cookie_dict ("Expires".toList)
  if truthyOpt max_age then
    match pyFloat (max_age.getD []) with
    | some q => .ok (some (q, Source.maxAge))
    | none => .valueError
  else if truthyOpt expiry ∧ expiry ≠ some ("Session".toList) then
    match parserInput (expiry.getD []) with
    | .valueError => .valueError
    | .ok e3 =>
      match strptimeFmt false e3 with
      | some dt => .ok (some (dateDiff dt now, Source.expires))
      | none =>
        match strptimeFmt true e3 with
        | some dt => .ok (some (dateDiff dt (nowRoundTrip2 now), Source.expires))
        | none => .valueError
  else .ok none

/-- The inner `for j, cookie_dict in enumerate(...)` loop over one website's
cookie list, collecting `lifespans` entries `(value, source, i, j)`. -/
def collectWebsite (dateDiff : DateTuple → DateTuple → ℚ) (now : DateTuple) (i : Nat) :
    Nat → List (List (Str × Str)) → PyResult (List (ℚ × Source × Nat × Nat))
  | _, [] => .ok []
  | j, c :: cs =>
    match processCookie dateDiff now c with
    | .valueError => .valueError
    | .ok entry =>
      match collectWebsite dateDiff now i (j + 1) cs with
      | .valueError => .valueError
      | .ok rest =>
        match entry with
        | some (q, src) => .ok ((q, src, i, j) :: rest)
        | none => .ok rest

/-- The outer `for i, entry_with_cookie_dicts in enumerate(cookies_list)`
loop (the `if entry_with_cookie_dicts:` guard skips empty cells). -/
def collectLifespans (dateDiff : DateTuple → DateTuple → ℚ) (now : DateTuple) :
    Nat → List (List (List (Str × Str))) → PyResult (List (ℚ × Source × Nat × Nat))
  | _, [] => .ok []
  | i, cl :: cls =>
    match (if cl.isEmpty then PyResult.ok [] else collectWebsite dateDiff now i 0 cl) with
    | .valueError => .valueError
    | .ok h =>
      match collectLifespans dateDiff now (i + 1) cls with
      | .valueError => .valueError
      | .ok rest => .ok (h ++ rest)

/-- `analyse.py` lines 788-789: the lifespan ranking, i.e. the collected
lifespans sorted descending by value, top 3
(`sorted(lifespans, key=itemgetter(0), reverse=True)[:3]`). -/
def find_cookies_longest_lifespans (dateDiff : DateTuple → DateTuple → ℚ)
    (now : DateTuple) (cookies_list : List (List (List (Str × Str)))) :
    PyResult (List (ℚ × Source × Nat × Nat)) :=
  match collectLifespans dateDiff now 0 cookies_list with
  | .valueError => .valueError
  | .ok ls => .ok ((pySortDesc (fun t => t.1) ls).take 3)

theorem collectWebsite_error (dateDiff : DateTuple → DateTuple → ℚ)
    (now : DateTuple) (i : Nat) :
    ∀ (cs1 : List (List (Str × Str))) (j : Nat) (c : List (Str × Str))
      (cs2 : List (List (Str × Str))),
      processCookie dateDiff now c = .valueError →
      (∀ c2 ∈ cs1, processCookie dateDiff now c2 ≠ .valueError) →
      collectWebsite dateDiff now i j (cs1 ++ c :: cs2) = .valueError := by
  intro cs1
  induction cs1 with
  | nil =>
    intro j c cs2 hc _
    simp only [List.nil_append, collectWebsite, hc]
  | cons d ds ih =>
    intro j c cs2 hc hok
    have hd : processCookie dateDiff now d ≠ .valueError :=
      hok d (List.mem_cons_self d ds)
    cases hpd : processCookie dateDiff now d with
    | valueError => exact absurd hpd hd
    | ok entry =>
      have hrec := ih (j + 1) c cs2 hc (fun c2 h => hok c2 (List.mem_cons_of_mem d h))
      rw [List.cons_append]
      simp only [collectWebsite, hpd]
      rw [hrec]

/-- Claim C2 (counterexample): with one cookie whose `Expires` value
(`"garbage"`) fails both date formats, the whole lifespan computation raises
(`ValueError` propagates out of `find_cookies_longest_lifespans`); removing
that cookie, the same computation succeeds with the remaining cookie ranked —
so the failing cookie is not excluded-and-skipped as claimed. -/
theorem C2_counterexample :
    find_cookies_longest_lifespans (fun _ _ => 0) ⟨0, 1, 1, 2000, 0, 0, 0⟩
      [[[("session".toList, "abc".toList), ("Max-Age".toList, "3600".toList)],
        [("id".toList, "x".toList), ("Expires".toList, "garbage".toList)]]] =
      .valueError ∧
    find_cookies_longest_lifespans (fun _ _ => 0) ⟨0, 1, 1, 2000, 0, 0, 0⟩
      [[[("session".toList, "abc".toList), ("Max-Age".toList, "3600".toList)]]] =
      .ok [((3600 : ℚ), Source.maxAge, 0, 0)] := by
  constructor
  · decide
  · decide

/-- Claim C2 (amended): a cookie whose `Expires` fails the 4-digit-year parse
is retried with the 2-digit-year format, but when both fail the `ValueError`
propagates and the whole lifespan computation aborts — the cookie is not
excluded with the rest continuing. -/
theorem C2_abort_on_double_parse_failure (dateDiff : DateTuple → DateTuple → ℚ)
    (now : DateTuple) (cs1 cs2 : List (List (Str × Str))) (c : List (Str × Str))
    (hc : processCookie dateDiff now c = .valueError)
    (hok : ∀ c2 ∈ cs1, processCookie dateDiff now c2 ≠ .valueError) :
    find_cookies_longest_lifespans dateDiff now [cs1 ++ c :: cs2] = .valueError := by
  have hne : (cs1 ++ c :: cs2).isEmpty = false := by
    cases cs1 <;> rfl
  have hweb : collectWebsite dateDiff now 0 0 (cs1 ++ c :: cs2) = .valueError :=
    collectWebsite_error dateDiff now 0 cs1 0 c cs2 hc hok
  unfold find_cookies_longest_lifespans collectLifespans
  rw [hne]
  simp only [Bool.false_eq_true, if_false, hweb]

theorem C2_witness :
    processCookie (fun _ _ => 0) ⟨0, 1, 1, 2000, 0, 0, 0⟩
      [("id".toList, "x".toList), ("Expires".toList, "garbage".toList)] = .valueError ∧
    find_cookies_longest_lifespans (fun _ _ => 0) ⟨0, 1, 1, 2000, 0, 0, 0⟩
      [[[("session".toList, "abc".toList), ("Max-Age".toList, "3600".toList)]] ++
        [("id".toList, "x".toList), ("Expires".toList, "garbage".toList)] :: []] =
      .valueError :=
  ⟨by decide,
    C2_abort_on_double_parse_failure (fun _ _ => 0) ⟨0, 1, 1, 2000, 0, 0, 0⟩
      [[("session".toList, "abc".toList), ("Max-Age".toList, "3600".toList)]] []
      [("id".toList, "x".toList), ("Expires".toList, "garbage".toList)]
      (by decide) (by decide)⟩

/-- Claim C4 (counterexample): the cookie map holds both a `Max-Age`
attribute (with value `""`) and an `Expires` attribute, yet the computation
does not return a `max-age` lifespan: the empty `Max-Age` is falsy, so the
code parses the `Expires` date and returns `source = expires`. -/
theorem C4_counterexample :
    processCookie (fun _ _ => 0) ⟨0, 1, 1, 2000, 0, 0, 0⟩
      [("id".toList, "x".toList), ("Max-Age".toList, []),
       ("Expires".toList, "Wed, 21 Oct 2015 07:28:00 GMT".toList)] =
      .ok (some (0, Source.expires)) ∧
    Source.expires ≠ Source.maxAge := by
  constructor
  · decide
  · decide

/-- Claim C4 (amended): when the cookie's `Max-Age` value is non-empty and
numeric, the computation returns it (as parsed by `float`) with
`source = max-age`, whatever the `Expires` attribute holds and with no date
parsing performed: the result does not depend on `dateDiff`, `now`, or the
`Expires` value at all. -/
theorem C4_max_age_precedence (dateDiff : DateTuple → DateTuple → ℚ)
    (now : DateTuple) (c : List (Str × Str)) (v e : Str) (q : ℚ)
    (h1 : dictGet c ("Max-Age".toList) = some v) (h2 : v ≠ [])
    (h3 : pyFloat v = some q)
    (h4 : dictGet c ("Expires".toList) = some e) :
    processCookie dateDiff now c = .ok (some (q, Source.maxAge)) := by
  obtain ⟨c0, v2, rfl⟩ := List.exists_cons_of_ne_nil h2
  simp only [processCookie, h1, h4, Option.getD_some, h3, truthyOpt, List.isEmpty_cons,
    Bool.not_false, if_pos]

theorem C4_witness :
    dictGet [("n".toList, "v".toList), ("Max-Age".toList, "3600".toList),
        ("Expires".toList, "Wed, 21 Oct 2015 07:28:00 GMT".toList)]
      ("Max-Age".toList) = some ("3600".toList) ∧
    pyFloat ("3600".toList) = some 3600 ∧
    processCookie (fun _ _ => 5) ⟨0, 1, 1, 2000, 0, 0, 0⟩
      [("n".toList, "v".toList), ("Max-Age".toList, "3600".toList),
       ("Expires".toList, "Wed, 21 Oct 2015 07:28:00 GMT".toList)] =
      .ok (some (3600, Source.maxAge)) :=
  ⟨by decide, by decide,
    C4_max_age_precedence (fun _ _ => 5) ⟨0, 1, 1, 2000, 0, 0, 0⟩
      [("n".toList, "v".toList), ("Max-Age".toList, "3600".toList),
       ("Expires".toList, "Wed, 21 Oct 2015 07:28:00 GMT".toList)]
      ("3600".toList) ("Wed, 21 Oct 2015 07:28:00 GMT".toList) 3600
      (by decide) (by decide) (by decide) (by decide)⟩

/-- Claim C7 (counterexample): the stripped date string
`Wed,21Oct20157:28:00+0000` (25 characters) ends in the 4-character timezone
suffix `0000` with no colon among its final 4 characters, yet the
normalization does not strip it — the code also requires the length to be
21-24, contradicting "with no further condition on the string's length". -/
theorem C7_counterexample :
    parserInput ("Wed, 21 Oct 2015 7:28:00 +0000".toList) =
      .ok ("Wed,21Oct20157:28:00+0000".toList) ∧
    ("Wed,21Oct20157:28:00+0000".toList).length = 25 ∧
    ':' ∉ ("Wed,21Oct20157:28:00+0000".toList).drop
      (("Wed,21Oct20157:28:00+0000".toList).length - 4) ∧
    ("Wed,21Oct20157:28:00+0000".toList).take
      (("Wed,21Oct20157:28:00+0000".toList).length - 4) ≠
      ("Wed,21Oct20157:28:00+0000".toList) := by
  refine ⟨?_, ?_, ?_, ?_⟩ <;> decide

/-- Claim C7 (amended): for a stripped date string whose final 4 characters
hold no colon, the trailing 4-character suffix is removed before parsing if
and only if the string's length is between 21 and 24; outside that length
range the string reaches the parser unchanged. -/
theorem C7_tz_strip_length_condition (e s : Str)
    (h : weekdayFix (removeDashSpace e) = .ok s)
    (hc : ':' ∉ s.drop (s.length - 4)) :
    (21 ≤ s.length ∧ s.length ≤ 24 →
      parserInput e = .ok (s.take (s.length - 4))) ∧
    (s.length < 21 ∨ 24 < s.length → parserInput e = .ok s) := by
  constructor
  · intro hlen
    have hd : s.length = 21 ∨ s.length = 22 ∨ s.length = 23 ∨ s.length = 24 := by omega
    simp only [parserInput, h, stripTZ, if_pos (And.intro hd hc)]
  · intro hlen
    have hd : ¬((s.length = 21 ∨ s.length = 22 ∨ s.length = 23 ∨ s.length = 24) ∧
        ':' ∉ s.drop (s.length - 4)) := by
      intro hcontra
      rcases hcontra with ⟨hdisj, _⟩
      omega
    simp only [parserInput, h, stripTZ, if_neg hd]

theorem C7_witness :
    weekdayFix (removeDashSpace ("Wed, 21 Oct 2015 07:28:00 GMT".toList)) =
      .ok ("Wed,21Oct201507:28:00GMT".toList) ∧
    ':' ∉ ("Wed,21Oct201507:28:00GMT".toList).drop
      (("Wed,21Oct201507:28:00GMT".toList).length - 4) ∧
    (21 ≤ ("Wed,21Oct201507:28:00GMT".toList).length ∧
        ("Wed,21Oct201507:28:00GMT".toList).length ≤ 24 →
      parserInput ("Wed, 21 Oct 2015 07:28:00 GMT".toList) =
        .ok (("Wed,21Oct201507:28:00GMT".toList).take
          (("Wed,21Oct201507:28:00GMT".toList).length - 4))) :=
  ⟨by decide, by decide,
    (C7_tz_strip_length_condition ("Wed, 21 Oct 2015 07:28:00 GMT".toList)
      ("Wed,21Oct201507:28:00GMT".toList) (by decide) (by decide)).1⟩
